import Mathlib

/-!
Shallow embedding of `src/memory_manager.c` and of the part of
`src/linked_list.c` that the verified claims refer to.

Modelling conventions:
* Arena addresses are byte offsets from the arena base (the `memory` global
  in C); the base is offset `0` and a C `NULL` result is `Option.none`.
* The `memory` global (the malloc'ed arena pointer) is tracked by its
  non-nullness only (`MMState.memory : Bool`).  `mem_deinit` frees the
  buffer but does not clear the pointer variable, so the flag survives
  `mem_deinit` unchanged.
* The singly linked chain of `MemoryBlock` records reachable from
  `memory_head` is a `List MemoryBlock` in `next` order; `start` and `end`
  are offsets (the C field `end` is called `stop` here, `end` being a Lean
  keyword).
* The `malloc` of a metadata `MemoryBlock` record is assumed to succeed
  (on failure the C code returns NULL with the manager state unchanged).
* Pointer differences such as `current->next->start - current->end` become
  truncated `Nat` subtraction; under the chain invariant proved below the
  minuend is the larger side, so the subtraction is exact.
* The pthread mutex makes every operation body atomic; in this sequential
  embedding each locked body is a single step, so the lock has no model.
* Arena contents are a function `Nat → UInt8`; only the `memcpy` inside
  `mem_resize` touches them.  Whenever source and destination ranges of
  that `memcpy` can overlap in a reachable state the destination lies
  below the source, so the functional copy agrees with the C call.
-/

namespace MemMgr

/-- One record of the block index: C struct `MemoryBlock` with offsets in
place of the `void *start` / `void *end` pointers. -/
structure MemoryBlock where
  start : Nat
  stop : Nat
deriving DecidableEq, Repr

/-- The manager's global state: `memory` (non-nullness of the arena
pointer), `memory_head` (the chain of records) and `memory_size`. -/
structure MMState where
  memory : Bool
  memory_head : List MemoryBlock
  memory_size : Nat
deriving DecidableEq, Repr

/-- Size of the range a record describes (`end - start`). -/
def blockSize (b : MemoryBlock) : Nat := b.stop - b.start

/-- Total number of bytes covered by live records. -/
def sumSizes (l : List MemoryBlock) : Nat := (l.map blockSize).sum

/-- `mem_init`: allocates the arena, empties the index, records the size.
`mallocOk` says whether `malloc(size)` returned a non-null buffer. -/
def mem_init (size : Nat) (mallocOk : Bool) : MMState :=
  { memory := mallocOk, memory_head := [], memory_size := size }

/-- The `while (current)` loop of `mem_alloc_no_lock`: the gap after
`current` is bounded by the next record's `start`, or by the arena end for
the last record.  Returns the chosen address and the updated chain. -/
def allocWalk (size cap : Nat) : List MemoryBlock → Option (Nat × List MemoryBlock)
  | [] => none
  | [c] =>
    if size ≤ cap - c.stop then some (c.stop, [c, ⟨c.stop, c.stop + size⟩])
    else none
  | c :: nxt :: rest =>
    if size ≤ nxt.start - c.stop then
      some (c.stop, c :: ⟨c.stop, c.stop + size⟩ :: nxt :: rest)
    else
      match allocWalk size cap (nxt :: rest) with
      | some (a, l) => some (a, c :: l)
      | none => none

/-- C `mem_alloc_no_lock`: fails on a null arena or oversize request,
returns the base for size 0, otherwise tries the gap before the first
record and then walks the chain first-fit. -/
def mem_alloc_no_lock (size : Nat) (st : MMState) : Option Nat × MMState :=
  if st.memory = false ∨ st.memory_size < size then (none, st)
  else if size = 0 then (some 0, st)
  else
    match st.memory_head with
    | [] => (some 0, { st with memory_head := [⟨0, size⟩] })
    | hd :: tl =>
      if size ≤ hd.start then
        (some 0, { st with memory_head := ⟨0, size⟩ :: hd :: tl })
      else
        match allocWalk size st.memory_size (hd :: tl) with
        | some (a, l) => (some a, { st with memory_head := l })
        | none => (none, st)

/-- C `mem_alloc`: the locked wrapper; the lock disappears in the
sequential embedding. -/
def mem_alloc (size : Nat) (st : MMState) : Option Nat × MMState :=
  mem_alloc_no_lock size st

/-- The unlink loop of `mem_free_no_lock`: remove the first record whose
`start` equals the argument, keep the chain unchanged when none does. -/
def freeWalk (b : Nat) : List MemoryBlock → List MemoryBlock
  | [] => []
  | c :: rest => if c.start = b then rest else c :: freeWalk b rest

/-- C `mem_free_no_lock`: null is a no-op, otherwise unlink the matching
record (silent no-op when the address is not tracked). -/
def mem_free_no_lock (block : Option Nat) (st : MMState) : MMState :=
  match block with
  | none => st
  | some b => { st with memory_head := freeWalk b st.memory_head }

/-- C `mem_free`: the locked wrapper. -/
def mem_free (block : Option Nat) (st : MMState) : MMState :=
  mem_free_no_lock block st

/-- The search loop of `mem_resize`: first record whose `start` equals the
given address. -/
def findBlock (b : Nat) : List MemoryBlock → Option MemoryBlock
  | [] => none
  | c :: rest => if c.start = b then some c else findBlock b rest

/-- `memcpy(dst, src, n)` on arena contents, as the functional copy. -/
def memcpy (dst src n : Nat) (mem : Nat → UInt8) : Nat → UInt8 :=
  fun i => if dst ≤ i ∧ i < dst + n then mem (src + (i - dst)) else mem i

/-- C `mem_resize`: size 0 frees the block; a null block is a plain
allocation; otherwise look the block up (untracked is a failing no-op),
free it, allocate the new size, roll back by re-allocating the recorded
old size on failure, and on success copy `min(old, new)` bytes when the
address moved. -/
def mem_resize (block : Option Nat) (size : Nat) (st : MMState)
    (mem : Nat → UInt8) : Option Nat × MMState × (Nat → UInt8) :=
  if size = 0 then
    match block with
    | some b => (none, mem_free_no_lock (some b) st, mem)
    | none => (none, st, mem)
  else
    match block with
    | none =>
      let p := mem_alloc_no_lock size st
      (p.1, p.2, mem)
    | some b =>
      match findBlock b st.memory_head with
      | none => (none, st, mem)
      | some cur =>
        let current_size := cur.stop - cur.start
        let st1 := mem_free_no_lock (some b) st
        match mem_alloc_no_lock size st1 with
        | (none, st2) => (none, (mem_alloc_no_lock current_size st2).2, mem)
        | (some nb, st2) =>
          let new_size := if size ≤ current_size then size else current_size
          (some nb, st2, if nb = b then mem else memcpy nb b new_size mem)

/-- C `mem_deinit`: frees the buffer (without clearing the `memory`
pointer variable), destroys every record, resets the size to 0. -/
def mem_deinit (st : MMState) : MMState :=
  { memory := st.memory, memory_head := [], memory_size := 0 }

/-- One call into the manager's public mutating interface. -/
inductive MMOp where
  | opInit (size : Nat) (mallocOk : Bool)
  | opAlloc (size : Nat)
  | opFree (block : Option Nat)
  | opResize (block : Option Nat) (size : Nat)
  | opDeinit

/-- State transition of one public call (arena contents are irrelevant to
the index, so `opResize` runs on a dummy content function). -/
def stepOp (st : MMState) : MMOp → MMState
  | .opInit size ok => mem_init size ok
  | .opAlloc size => (mem_alloc_no_lock size st).2
  | .opFree b => mem_free_no_lock b st
  | .opResize b size => (mem_resize b size st (fun _ => 0)).2.1
  | .opDeinit => mem_deinit st

/-- C global variables start zero-initialized: null arena, empty chain,
size 0. -/
def initialState : MMState :=
  { memory := false, memory_head := [], memory_size := 0 }

/-- State after a sequence of public calls from program start. -/
def run (ops : List MMOp) : MMState := ops.foldl stepOp initialState

/-- Well-formedness of the chain above a lower bound `lo`: starts are
ascending, each record is non-empty, no two records overlap, and all
records lie inside `[lo, cap)`. -/
def chainOK (lo cap : Nat) : List MemoryBlock → Bool
  | [] => true
  | b :: rest =>
    decide (lo ≤ b.start) && decide (b.start < b.stop) && decide (b.stop ≤ cap)
      && chainOK b.stop cap rest

/-- The manager invariant: the chain is well-formed inside the arena, and
a null arena pointer implies an empty chain. -/
def Inv (st : MMState) : Prop :=
  chainOK 0 st.memory_size st.memory_head = true ∧
    (st.memory = false → st.memory_head = [])

/-- Spec §4.2 companion, used only for the refinement claim.  The free
gaps of the arena in address order, as `(gapStart, gapLength)` pairs:
first the gap before the first record (the whole arena if none exists),
then between each record's `end` and the next record's `start`, with the
arena end bounding the last record's gap.  `lo` is the left edge of the
next gap. -/
def gapsLow (lo cap : Nat) : List MemoryBlock → List (Nat × Nat)
  | [] => [(lo, cap - lo)]
  | b :: rest => (lo, b.start - lo) :: gapsLow b.stop cap rest

/-- Spec §4.2 companion: first-fit over the gap list — the start of the
first gap at least `s` long. -/
def firstFit (s : Nat) : List (Nat × Nat) → Option Nat
  | [] => none
  | g :: gs => if s ≤ g.2 then some g.1 else firstFit s gs

/-- Spec §3/§4.2 companion: insertion into the chain at the sorted
position (ascending `start`). -/
def sortedInsert (blk : MemoryBlock) : List MemoryBlock → List MemoryBlock
  | [] => [blk]
  | c :: rest =>
    if blk.start ≤ c.start then blk :: c :: rest else c :: sortedInsert blk rest

/-- Spec §4.2 transcribed: fail on an uninitialized arena or a request
over capacity; size 0 returns the base with no record; otherwise place a
record of the requested size at the first fitting gap, inserted at its
sorted position, and fail with the index unchanged when no gap fits. -/
def allocSpec (size : Nat) (st : MMState) : Option Nat × MMState :=
  if st.memory = false ∨ st.memory_size < size then (none, st)
  else if size = 0 then (some 0, st)
  else
    match firstFit size (gapsLow 0 st.memory_size st.memory_head) with
    | some a => (some a, { st with memory_head := sortedInsert ⟨a, a + size⟩ st.memory_head })
    | none => (none, st)

example :
    mem_alloc_no_lock 30 (mem_init 100 true) =
      (some 0, ⟨true, [⟨0, 30⟩], 100⟩) := by decide

example :
    (mem_alloc_no_lock 40 ⟨true, [⟨0, 30⟩], 100⟩).1 = some 30 := by decide

example :
    (mem_alloc_no_lock 50 ⟨true, [⟨30, 70⟩], 100⟩).1 = none := by decide

example :
    (mem_alloc_no_lock 30 ⟨true, [⟨30, 70⟩], 100⟩).1 = some 0 := by decide

/-- A node of the list client, abstracted to its address in the arena and
its `data` field; the `next` pointers are the list order, so a well-formed
C list is the sequence of its nodes. -/
structure LNode where
  addr : Nat
  data : Nat
deriving DecidableEq, Repr

/-- Addresses of the nodes of a list. -/
def listAddrs (l : List LNode) : List Nat := l.map LNode.addr

/-- The `while (current && current->next != next_node)` walk of
`list_insert_before`: `current->next` of the node at a position is the
address of the node after it (`NULL`, never equal to the non-null target,
for the last node).  When the predecessor of the target is found the new
node is linked after it; when the walk falls off the end nothing is
linked. -/
def insertBeforeWalk (nw : LNode) (t : Nat) : List LNode → List LNode
  | [] => []
  | [c] => [c]
  | c :: d :: rest =>
    if d.addr = t then c :: nw :: d :: rest
    else c :: insertBeforeWalk nw t (d :: rest)

/-- C `list_insert_before` (src/linked_list.c): returns unchanged on an
empty list or a null target; otherwise allocates a node from the manager
(returning on failure), prepends when the target is the head, and
otherwise searches for the predecessor of the target, linking the new
node only when one is found. -/
def list_insert_before (mgr : MMState) (lst : List LNode) (target : Option Nat)
    (data nodeSize : Nat) : MMState × List LNode :=
  match lst, target with
  | [], _ => (mgr, lst)
  | _, none => (mgr, lst)
  | hd :: tl, some t =>
    match mem_alloc_no_lock nodeSize mgr with
    | (none, mgr2) => (mgr2, hd :: tl)
    | (some a, mgr2) =>
      if t = hd.addr then (mgr2, ⟨a, data⟩ :: hd :: tl)
      else (mgr2, insertBeforeWalk ⟨a, data⟩ t (hd :: tl))

lemma freeWalk_eq_self {b : Nat} :
    ∀ {l : List MemoryBlock}, findBlock b l = none → freeWalk b l = l := by
  intro l h
  induction l with
  | nil => rfl
  | cons c rest ih =>
    unfold findBlock at h
    unfold freeWalk
    by_cases hc : c.start = b
    · simp [hc] at h
    · simp only [if_neg hc] at h ⊢
      rw [ih h]

/-- Claim C5: `mem_free` on null or on an address that is the `start` of
no tracked record leaves the state unchanged (so double frees and frees
of never-allocated addresses are no-ops, any number of times), and
`mem_resize` on such a non-null untracked address reports no allocation
and changes neither the state nor the arena contents. -/
theorem c5_untracked_free_resize_noop (st : MMState) (mem : Nat → UInt8)
    (a s : Nat) (h : findBlock a st.memory_head = none) :
    mem_free_no_lock none st = st ∧
    mem_free_no_lock (some a) st = st ∧
    mem_resize (some a) s st mem = (none, st, mem) := by
  have hfree : mem_free_no_lock (some a) st = st := by
    show { st with memory_head := freeWalk a st.memory_head } = st
    rw [freeWalk_eq_self h]
  refine ⟨rfl, hfree, ?_⟩
  unfold mem_resize
  by_cases hs : s = 0
  · simp only [if_pos hs, hfree]
  · simp only [if_neg hs, h]

theorem c5_witness :
    mem_free_no_lock none (MMState.mk true [⟨0, 5⟩] 10) = MMState.mk true [⟨0, 5⟩] 10 ∧
    mem_free_no_lock (some 3) (MMState.mk true [⟨0, 5⟩] 10) = MMState.mk true [⟨0, 5⟩] 10 ∧
    mem_resize (some 3) 7 (MMState.mk true [⟨0, 5⟩] 10) (fun _ => 0) =
      (none, MMState.mk true [⟨0, 5⟩] 10, fun _ => 0) :=
  c5_untracked_free_resize_noop (MMState.mk true [⟨0, 5⟩] 10) (fun _ => 0) 3 7 (by decide)

/-- Claim C6: on an initialized manager (non-null arena pointer) an
allocation of size 0 succeeds, returns the arena base (offset 0), and
leaves the state — in particular the count of live records — unchanged. -/
theorem c6_alloc_zero_returns_base (st : MMState) (h : st.memory = true) :
    mem_alloc_no_lock 0 st = (some 0, st) := by
  unfold mem_alloc_no_lock
  simp [h]

theorem c6_witness :
    mem_alloc_no_lock 0 (mem_init 10 true) = (some 0, mem_init 10 true) :=
  c6_alloc_zero_returns_base (mem_init 10 true) (by decide)

/-- Claim C7 counterexample: after `mem_init(10)` followed by
`mem_deinit()`, a `mem_alloc(0)` does not report "no allocation" — the
stale arena base is returned because `mem_deinit` never clears the
`memory` pointer variable. -/
theorem c7_counterexample :
    (mem_alloc_no_lock 0 (mem_deinit (mem_init 10 true))).1 ≠ none := by decide

/-- Claim C7 (amended): after `mem_deinit` the capacity is reset to 0 and
every block record is destroyed, and every subsequent `mem_alloc` of size
at least 1 reports no allocation; but `mem_alloc 0` still returns the
stale arena base whenever the arena pointer was non-null, since
`mem_deinit` does not clear the pointer variable. -/
theorem c7_deinit_inert (st : MMState) (s : Nat) (h : 1 ≤ s) :
    (mem_deinit st).memory_size = 0 ∧
    (mem_deinit st).memory_head = [] ∧
    (mem_alloc_no_lock s (mem_deinit st)).1 = none ∧
    (mem_alloc_no_lock 0 (mem_deinit st)).1 =
      (if st.memory then some 0 else none) := by
  refine ⟨rfl, rfl, ?_, ?_⟩
  · unfold mem_alloc_no_lock mem_deinit
    simp only
    rw [if_pos (Or.inr (by omega))]
  · unfold mem_alloc_no_lock mem_deinit
    cases hm : st.memory <;> simp

theorem c7_witness :
    (mem_deinit (mem_init 10 true)).memory_size = 0 ∧
    (mem_deinit (mem_init 10 true)).memory_head = [] ∧
    (mem_alloc_no_lock 1 (mem_deinit (mem_init 10 true))).1 = none ∧
    (mem_alloc_no_lock 0 (mem_deinit (mem_init 10 true))).1 =
      (if (mem_init 10 true).memory then some 0 else none) :=
  c7_deinit_inert (mem_init 10 true) 1 (by decide)

lemma mem_resize_success {st : MMState} {mem : Nat → UInt8} {b s : Nat}
    {cur : MemoryBlock} {nb : Nat} {st2 : MMState}
    (h1 : findBlock b st.memory_head = some cur) (hs : s ≠ 0)
    (hp : mem_alloc_no_lock s (mem_free_no_lock (some b) st) = (some nb, st2)) :
    mem_resize (some b) s st mem =
      (some nb, st2,
        if nb = b then mem
        else memcpy nb b (if s ≤ cur.stop - cur.start then s else cur.stop - cur.start) mem) := by
  unfold mem_resize
  simp only [if_neg hs, h1, hp]

lemma mem_resize_failure {st : MMState} {mem : Nat → UInt8} {b s : Nat}
    {cur : MemoryBlock} {st2 : MMState}
    (h1 : findBlock b st.memory_head = some cur) (hs : s ≠ 0)
    (hp : mem_alloc_no_lock s (mem_free_no_lock (some b) st) = (none, st2)) :
    mem_resize (some b) s st mem =
      (none, (mem_alloc_no_lock (cur.stop - cur.start) st2).2, mem) := by
  unfold mem_resize
  simp only [if_neg hs, h1, hp]

lemma mem_resize_zero (blk : Option Nat) (st : MMState) (mem : Nat → UInt8) :
    mem_resize blk 0 st mem = (none, mem_free_no_lock blk st, mem) := by
  unfold mem_resize
  cases blk <;> simp [mem_free_no_lock]

lemma mem_resize_none_blk {s : Nat} (st : MMState) (mem : Nat → UInt8)
    (hs : s ≠ 0) :
    mem_resize none s st mem =
      ((mem_alloc_no_lock s st).1, (mem_alloc_no_lock s st).2, mem) := by
  unfold mem_resize
  simp [hs]

lemma mem_resize_untracked {st : MMState} {b s : Nat} (mem : Nat → UInt8)
    (hs : s ≠ 0) (hf : findBlock b st.memory_head = none) :
    mem_resize (some b) s st mem = (none, st, mem) := by
  unfold mem_resize
  simp only [if_neg hs, hf]

/-- Claim C3: when `mem_resize` on a tracked block of current size `S`
succeeds with new size `s`, the first `min S s` bytes of the payload are
preserved at the returned address — copied there when the address moved,
untouched when it did not. -/
theorem c3_resize_preserves_payload (st : MMState) (mem : Nat → UInt8)
    (b s n : Nat) (cur : MemoryBlock)
    (h1 : findBlock b st.memory_head = some cur) (h2 : 1 ≤ s)
    (h3 : (mem_resize (some b) s st mem).1 = some n) :
    ∀ i < min (blockSize cur) s,
      (mem_resize (some b) s st mem).2.2 (n + i) = mem (b + i) := by
  intro i hi
  have hs : s ≠ 0 := by omega
  rcases hp : mem_alloc_no_lock s (mem_free_no_lock (some b) st) with ⟨r, st2⟩
  cases r with
  | none =>
    rw [mem_resize_failure h1 hs hp] at h3
    simp at h3
  | some nb =>
    rw [mem_resize_success h1 hs hp] at h3 ⊢
    simp only [Option.some.injEq] at h3
    subst h3
    by_cases hb : nb = b
    · simp [hb]
    · simp only [if_neg hb]
      have hS : blockSize cur = cur.stop - cur.start := rfl
      unfold memcpy
      have hcond : nb ≤ nb + i ∧ nb + i < nb + (if s ≤ cur.stop - cur.start then s else cur.stop - cur.start) := by
        constructor
        · omega
        · rw [hS] at hi
          by_cases hss : s ≤ cur.stop - cur.start <;> simp [hss] <;> omega
      rw [if_pos hcond]
      congr 1
      omega

theorem c3_witness :
    (mem_resize (some 2) 2 (MMState.mk true [⟨2, 6⟩] 10) (fun j => UInt8.ofNat j)).2.2 (0 + 1) =
      (fun j => UInt8.ofNat j) (2 + 1) :=
  c3_resize_preserves_payload (MMState.mk true [⟨2, 6⟩] 10)
    (fun j => UInt8.ofNat j) 2 2 0 ⟨2, 6⟩ (by decide) (by decide) (by decide) 1 (by decide)

lemma chainOK_cons {lo cap : Nat} {b : MemoryBlock} {rest : List MemoryBlock} :
    chainOK lo cap (b :: rest) = true ↔
      lo ≤ b.start ∧ b.start < b.stop ∧ b.stop ≤ cap ∧ chainOK b.stop cap rest = true := by
  simp [chainOK, and_assoc]

lemma chainOK_cons' {lo cap s e : Nat} {rest : List MemoryBlock} :
    chainOK lo cap (⟨s, e⟩ :: rest) = true ↔
      lo ≤ s ∧ s < e ∧ e ≤ cap ∧ chainOK e cap rest = true := by
  simp [chainOK, and_assoc]

lemma chainOK_mono {cap : Nat} :
    ∀ {l : List MemoryBlock} {lo lo' : Nat}, lo' ≤ lo →
      chainOK lo cap l = true → chainOK lo' cap l = true := by
  intro l lo lo' h hc
  cases l with
  | nil => rfl
  | cons b rest =>
    rw [chainOK_cons] at hc ⊢
    exact ⟨le_trans h hc.1, hc.2⟩

lemma chainOK_forall_mem {cap : Nat} :
    ∀ {l : List MemoryBlock} {lo : Nat}, chainOK lo cap l = true →
      ∀ x ∈ l, lo ≤ x.start ∧ x.start < x.stop ∧ x.stop ≤ cap := by
  intro l
  induction l with
  | nil => intro lo _ x hx; cases hx
  | cons b rest ih =>
    intro lo hc x hx
    rw [chainOK_cons] at hc
    cases hx with
    | head => exact ⟨hc.1, hc.2.1, hc.2.2.1⟩
    | tail _ hx' =>
      have := ih hc.2.2.2 x hx'
      exact ⟨by omega, this.2⟩

lemma chainOK_pairwise {cap : Nat} :
    ∀ {l : List MemoryBlock} {lo : Nat}, chainOK lo cap l = true →
      l.Pairwise (fun A B => A.stop ≤ B.start) := by
  intro l
  induction l with
  | nil => intro lo _; exact List.Pairwise.nil
  | cons b rest ih =>
    intro lo hc
    rw [chainOK_cons] at hc
    refine List.Pairwise.cons ?_ (ih hc.2.2.2)
    intro x hx
    exact (chainOK_forall_mem hc.2.2.2 x hx).1

lemma sumSizes_le {cap : Nat} :
    ∀ {l : List MemoryBlock} {lo : Nat}, chainOK lo cap l = true →
      sumSizes l ≤ cap - lo := by
  intro l
  induction l with
  | nil => intro lo _; simp [sumSizes]
  | cons b rest ih =>
    intro lo hc
    rw [chainOK_cons] at hc
    have hrest := ih hc.2.2.2
    simp only [sumSizes, List.map_cons, List.sum_cons] at hrest ⊢
    rw [show blockSize b = b.stop - b.start from rfl]
    omega

lemma allocWalk_chainOK {cap size : Nat} (hsz : 1 ≤ size) :
    ∀ {l : List MemoryBlock} {lo a : Nat} {l' : List MemoryBlock},
      chainOK lo cap l = true → allocWalk size cap l = some (a, l') →
      chainOK lo cap l' = true := by
  intro l
  induction l with
  | nil => intro lo a l' _ hw; simp [allocWalk] at hw
  | cons c rest ih =>
    intro lo a l' hc hw
    rw [chainOK_cons] at hc
    obtain ⟨h1, h2, h3, h4⟩ := hc
    cases rest with
    | nil =>
      unfold allocWalk at hw
      by_cases hfit : size ≤ cap - c.stop
      · rw [if_pos hfit] at hw
        simp only [Option.some.injEq, Prod.mk.injEq] at hw
        obtain ⟨rfl, rfl⟩ := hw
        rw [chainOK_cons]
        refine ⟨h1, h2, h3, ?_⟩
        rw [chainOK_cons']
        exact ⟨le_refl _, by omega, by omega, rfl⟩
      · rw [if_neg hfit] at hw
        cases hw
    | cons nxt rest' =>
      rw [chainOK_cons] at h4
      obtain ⟨g1, g2, g3, g4⟩ := h4
      unfold allocWalk at hw
      by_cases hfit : size ≤ nxt.start - c.stop
      · rw [if_pos hfit] at hw
        simp only [Option.some.injEq, Prod.mk.injEq] at hw
        obtain ⟨rfl, rfl⟩ := hw
        rw [chainOK_cons]
        refine ⟨h1, h2, h3, ?_⟩
        rw [chainOK_cons']
        refine ⟨le_refl _, by omega, by omega, ?_⟩
        rw [chainOK_cons]
        exact ⟨by omega, g2, g3, g4⟩
      · rw [if_neg hfit] at hw
        cases hw' : allocWalk size cap (nxt :: rest') with
        | none => rw [hw'] at hw; cases hw
        | some p =>
          rcases p with ⟨a2, l2⟩
          rw [hw'] at hw
          simp only [Option.some.injEq, Prod.mk.injEq] at hw
          obtain ⟨rfl, rfl⟩ := hw
          rw [chainOK_cons]
          refine ⟨h1, h2, h3, ?_⟩
          exact ih (by rw [chainOK_cons]; exact ⟨g1, g2, g3, g4⟩) hw'

lemma alloc_preserves_Inv (size : Nat) (st : MMState) (h : Inv st) :
    Inv (mem_alloc_no_lock size st).2 := by
  obtain ⟨hchain, hmem⟩ := h
  unfold mem_alloc_no_lock
  by_cases h0 : st.memory = false ∨ st.memory_size < size
  · rw [if_pos h0]
    exact ⟨hchain, hmem⟩
  · rw [if_neg h0]
    push_neg at h0
    obtain ⟨hmemT, hcap⟩ := h0
    have hmemT' : st.memory = true := by
      cases hm : st.memory
      · exact absurd hm hmemT
      · rfl
    by_cases hz : size = 0
    · rw [if_pos hz]
      exact ⟨hchain, hmem⟩
    · rw [if_neg hz]
      have hsz : 1 ≤ size := by omega
      cases hh : st.memory_head with
      | nil =>
        dsimp only
        constructor
        · show chainOK 0 st.memory_size [⟨0, size⟩] = true
          rw [chainOK_cons']
          exact ⟨le_refl _, by omega, by omega, rfl⟩
        · intro hf
          simp [hmemT'] at hf
      | cons hd tl =>
        rw [hh] at hchain
        rw [chainOK_cons] at hchain
        obtain ⟨k1, k2, k3, k4⟩ := hchain
        dsimp only
        by_cases hfit : size ≤ hd.start
        · rw [if_pos hfit]
          constructor
          · show chainOK 0 st.memory_size (⟨0, size⟩ :: hd :: tl) = true
            rw [chainOK_cons']
            refine ⟨le_refl _, by omega, by omega, ?_⟩
            rw [chainOK_cons]
            exact ⟨hfit, k2, k3, k4⟩
          · intro hf
            simp [hmemT'] at hf
        · rw [if_neg hfit]
          cases hw : allocWalk size st.memory_size (hd :: tl) with
          | none =>
            dsimp only
            refine ⟨?_, hmem⟩
            rw [hh, chainOK_cons]
            exact ⟨k1, k2, k3, k4⟩
          | some p =>
            rcases p with ⟨a, l'⟩
            dsimp only
            constructor
            · show chainOK 0 st.memory_size l' = true
              exact allocWalk_chainOK hsz
                (by rw [chainOK_cons]; exact ⟨k1, k2, k3, k4⟩) hw
            · intro hf
              simp [hmemT'] at hf

lemma freeWalk_chainOK {cap b : Nat} :
    ∀ {l : List MemoryBlock} {lo : Nat}, chainOK lo cap l = true →
      chainOK lo cap (freeWalk b l) = true := by
  intro l
  induction l with
  | nil => intro lo _; rfl
  | cons c rest ih =>
    intro lo hc
    rw [chainOK_cons] at hc
    obtain ⟨h1, h2, h3, h4⟩ := hc
    unfold freeWalk
    by_cases hb : c.start = b
    · rw [if_pos hb]
      exact chainOK_mono (by omega) h4
    · rw [if_neg hb]
      rw [chainOK_cons]
      exact ⟨h1, h2, h3, ih h4⟩

lemma free_preserves_Inv (blk : Option Nat) (st : MMState) (h : Inv st) :
    Inv (mem_free_no_lock blk st) := by
  obtain ⟨hchain, hmem⟩ := h
  cases blk with
  | none => exact ⟨hchain, hmem⟩
  | some b =>
    constructor
    · show chainOK 0 st.memory_size (freeWalk b st.memory_head) = true
      exact freeWalk_chainOK hchain
    · intro hf
      show freeWalk b st.memory_head = []
      rw [hmem hf]
      rfl

lemma resize_preserves_Inv (blk : Option Nat) (size : Nat) (st : MMState)
    (mem : Nat → UInt8) (h : Inv st) : Inv (mem_resize blk size st mem).2.1 := by
  by_cases hz : size = 0
  · subst hz
    rw [mem_resize_zero]
    exact free_preserves_Inv blk st h
  · cases blk with
    | none =>
      rw [mem_resize_none_blk st mem hz]
      exact alloc_preserves_Inv size st h
    | some b =>
      cases hf : findBlock b st.memory_head with
      | none =>
        rw [mem_resize_untracked mem hz hf]
        exact h
      | some cur =>
        rcases hp : mem_alloc_no_lock size (mem_free_no_lock (some b) st) with ⟨r, st2⟩
        have hst2 : Inv st2 := by
          have := alloc_preserves_Inv size (mem_free_no_lock (some b) st)
            (free_preserves_Inv (some b) st h)
          rw [hp] at this
          exact this
        cases r with
        | none =>
          rw [mem_resize_failure hf hz hp]
          exact alloc_preserves_Inv (cur.stop - cur.start) st2 hst2
        | some nb =>
          rw [mem_resize_success hf hz hp]
          exact hst2

lemma stepOp_preserves_Inv (st : MMState) (op : MMOp) (h : Inv st) :
    Inv (stepOp st op) := by
  cases op with
  | opInit size ok =>
    refine ⟨rfl, fun _ => rfl⟩
  | opAlloc size => exact alloc_preserves_Inv size st h
  | opFree b => exact free_preserves_Inv b st h
  | opResize b size => exact resize_preserves_Inv b size st (fun _ => 0) h
  | opDeinit => exact ⟨rfl, fun _ => rfl⟩

lemma run_Inv (ops : List MMOp) : Inv (run ops) := by
  have main : ∀ (l : List MMOp) (st : MMState), Inv st → Inv (l.foldl stepOp st) := by
    intro l
    induction l with
    | nil => intro st h; exact h
    | cons op rest ih =>
      intro st h
      exact ih _ (stepOp_preserves_Inv st op h)
  exact main ops initialState ⟨rfl, fun _ => rfl⟩

/-- Claim C1: after any sequence of public manager calls from program
start, the block index is a chain of records with pairwise ordered,
non-overlapping ranges (consecutive records `A`, `B` satisfy
`A.end ≤ B.start`, which with `start < end` also gives ascending `start`
order), every record is non-empty and lies inside the arena
`[0, capacity)`, and the sum of all live block sizes is at most the
capacity. -/
theorem c1_index_invariant (ops : List MMOp) :
    ((run ops).memory_head).Pairwise (fun A B => A.stop ≤ B.start) ∧
    (∀ blk ∈ (run ops).memory_head,
        blk.start < blk.stop ∧ blk.stop ≤ (run ops).memory_size) ∧
    sumSizes (run ops).memory_head ≤ (run ops).memory_size := by
  obtain ⟨hchain, _⟩ := run_Inv ops
  refine ⟨chainOK_pairwise hchain, ?_, ?_⟩
  · intro blk hb
    exact (chainOK_forall_mem hchain blk hb).2
  · have := sumSizes_le hchain
    omega

lemma sortedInsert_nil {blk : MemoryBlock} : sortedInsert blk [] = [blk] := rfl

lemma sortedInsert_cons_le {blk c : MemoryBlock} {rest : List MemoryBlock}
    (h : blk.start ≤ c.start) :
    sortedInsert blk (c :: rest) = blk :: c :: rest := by
  simp only [sortedInsert]
  rw [if_pos h]

lemma sortedInsert_cons_lt {blk c : MemoryBlock} {rest : List MemoryBlock}
    (h : c.start < blk.start) :
    sortedInsert blk (c :: rest) = c :: sortedInsert blk rest := by
  simp only [sortedInsert]
  rw [if_neg (by omega)]

lemma walk_spec {cap s : Nat} :
    ∀ {rest : List MemoryBlock} {c : MemoryBlock} {lo : Nat},
      chainOK lo cap (c :: rest) = true →
      (allocWalk s cap (c :: rest) = none ∧
        firstFit s (gapsLow c.stop cap rest) = none) ∨
      (∃ a l', allocWalk s cap (c :: rest) = some (a, l') ∧
        firstFit s (gapsLow c.stop cap rest) = some a ∧
        l' = sortedInsert ⟨a, a + s⟩ (c :: rest) ∧ c.stop ≤ a) := by
  intro rest
  induction rest with
  | nil =>
    intro c lo hc
    rw [chainOK_cons] at hc
    obtain ⟨h1, h2, h3, -⟩ := hc
    by_cases hfit : s ≤ cap - c.stop
    · right
      refine ⟨c.stop, [c, ⟨c.stop, c.stop + s⟩], ?_, ?_, ?_, le_refl _⟩
      · unfold allocWalk
        rw [if_pos hfit]
      · unfold gapsLow firstFit
        rw [if_pos hfit]
      · rw [sortedInsert_cons_lt (by exact h2), sortedInsert_nil]
    · left
      constructor
      · unfold allocWalk
        rw [if_neg hfit]
      · unfold gapsLow firstFit
        rw [if_neg hfit]
        rfl
  | cons nxt rest' ih =>
    intro c lo hc
    rw [chainOK_cons] at hc
    obtain ⟨h1, h2, h3, hc'⟩ := hc
    have h4 := hc'
    rw [chainOK_cons] at h4
    obtain ⟨g1, g2, g3, g4⟩ := h4
    by_cases hfit : s ≤ nxt.start - c.stop
    · right
      refine ⟨c.stop, c :: ⟨c.stop, c.stop + s⟩ :: nxt :: rest', ?_, ?_, ?_, le_refl _⟩
      · unfold allocWalk
        rw [if_pos hfit]
      · unfold gapsLow firstFit
        rw [if_pos hfit]
      · rw [sortedInsert_cons_lt (by exact h2),
          sortedInsert_cons_le (by exact g1)]
    · rcases ih hc' with ⟨hwn, hfn⟩ | ⟨a, l2, hw2, hf2, hins, hle⟩
      · left
        constructor
        · unfold allocWalk
          rw [if_neg hfit]
          simp only [hwn]
        · unfold gapsLow firstFit
          rw [if_neg hfit]
          exact hfn
      · right
        have ha : c.start < a := by omega
        refine ⟨a, c :: l2, ?_, ?_, ?_, by omega⟩
        · unfold allocWalk
          rw [if_neg hfit]
          simp only [hw2]
        · unfold gapsLow firstFit
          rw [if_neg hfit]
          exact hf2
        · rw [sortedInsert_cons_lt (by exact ha), ← hins]

lemma alloc_eq_allocSpec {s : Nat} {st : MMState}
    (hchain : chainOK 0 st.memory_size st.memory_head = true) :
    mem_alloc_no_lock s st = allocSpec s st := by
  unfold mem_alloc_no_lock allocSpec
  by_cases h0 : st.memory = false ∨ st.memory_size < s
  · rw [if_pos h0, if_pos h0]
  · rw [if_neg h0, if_neg h0]
    push_neg at h0
    obtain ⟨hmemT, hcap⟩ := h0
    by_cases hz : s = 0
    · rw [if_pos hz, if_pos hz]
    · rw [if_neg hz, if_neg hz]
      have hs : 1 ≤ s := by omega
      cases hh : st.memory_head with
      | nil =>
        have hff : firstFit s (gapsLow 0 st.memory_size []) = some 0 := by
          unfold gapsLow firstFit
          rw [if_pos (by omega)]
        rw [hff]
        simp [sortedInsert]
      | cons hd tl =>
        rw [hh] at hchain
        have hch := hchain
        rw [chainOK_cons] at hch
        obtain ⟨k1, k2, k3, k4⟩ := hch
        dsimp only
        by_cases hfit : s ≤ hd.start
        · rw [if_pos hfit]
          have hff : firstFit s (gapsLow 0 st.memory_size (hd :: tl)) = some 0 := by
            unfold gapsLow firstFit
            rw [if_pos (by omega)]
          rw [hff]
          dsimp only
          rw [sortedInsert_cons_le (by exact Nat.zero_le _)]
          simp
        · rw [if_neg hfit]
          have hgl : gapsLow 0 st.memory_size (hd :: tl) =
              (0, hd.start - 0) :: gapsLow hd.stop st.memory_size tl := rfl
          have hff : firstFit s ((0, hd.start - 0) :: gapsLow hd.stop st.memory_size tl) =
              firstFit s (gapsLow hd.stop st.memory_size tl) := by
            simp only [firstFit]
            rw [if_neg (by omega)]
          rcases walk_spec hchain with ⟨hwn, hfn⟩ | ⟨a, l2, hw2, hf2, hins, hle⟩
          · rw [hwn, hgl, hff, hfn]
          · rw [hw2, hgl, hff, hf2]
            dsimp only
            rw [hins]

/-- Claim C2: under the chain invariant, `mem_alloc` is exactly the
spec's first-fit allocation: fail on an uninitialized arena or a request
over capacity with the index unchanged, succeed on size 0 at the base,
otherwise place the block at the start of the first sufficiently large
gap in ascending address order (the gap before the first record first,
then the gap after each record) and insert its record at the sorted
position, failing with the index unchanged when no gap fits. -/
theorem c2_alloc_is_first_fit (st : MMState) (s : Nat)
    (h : chainOK 0 st.memory_size st.memory_head = true) :
    mem_alloc_no_lock s st = allocSpec s st :=
  alloc_eq_allocSpec h

theorem c2_witness :
    mem_alloc_no_lock 3 (MMState.mk true [⟨2, 4⟩] 10) =
      allocSpec 3 (MMState.mk true [⟨2, 4⟩] 10) :=
  c2_alloc_is_first_fit (MMState.mk true [⟨2, 4⟩] 10) 3 (by decide)

lemma findBlock_some {b : Nat} :
    ∀ {l : List MemoryBlock} {cur : MemoryBlock},
      findBlock b l = some cur → cur ∈ l ∧ cur.start = b := by
  intro l
  induction l with
  | nil => intro cur hf; simp [findBlock] at hf
  | cons c rest ih =>
    intro cur hf
    unfold findBlock at hf
    by_cases hb : c.start = b
    · rw [if_pos hb] at hf
      obtain rfl : c = cur := by simpa using hf
      exact ⟨List.mem_cons_self _ _, hb⟩
    · rw [if_neg hb] at hf
      obtain ⟨hm, hs⟩ := ih hf
      exact ⟨List.mem_cons_of_mem _ hm, hs⟩

lemma firstFit_isSome {s : Nat} :
    ∀ {gs : List (Nat × Nat)}, (∃ g ∈ gs, s ≤ g.2) →
      ∃ a, firstFit s gs = some a := by
  intro gs
  induction gs with
  | nil => rintro ⟨g, hg, -⟩; cases hg
  | cons g0 gs' ih =>
    rintro ⟨g, hg, hgs⟩
    by_cases h0 : s ≤ g0.2
    · exact ⟨g0.1, by simp only [firstFit]; rw [if_pos h0]⟩
    · have : ∃ g ∈ gs', s ≤ g.2 := by
        cases hg with
        | head => exact absurd hgs h0
        | tail _ ht => exact ⟨g, ht, hgs⟩
      obtain ⟨a, ha⟩ := ih this
      exact ⟨a, by simp only [firstFit]; rw [if_neg h0]; exact ha⟩

lemma free_gap {cap b : Nat} :
    ∀ {l : List MemoryBlock} {lo : Nat} {cur : MemoryBlock},
      chainOK lo cap l = true → findBlock b l = some cur →
      ∃ g ∈ gapsLow lo cap (freeWalk b l), blockSize cur ≤ g.2 := by
  intro l
  induction l with
  | nil => intro lo cur _ hf; simp [findBlock] at hf
  | cons c rest ih =>
    intro lo cur hc hf
    rw [chainOK_cons] at hc
    obtain ⟨h1, h2, h3, h4⟩ := hc
    unfold findBlock at hf
    unfold freeWalk
    by_cases hb : c.start = b
    · rw [if_pos hb] at hf ⊢
      obtain rfl : c = cur := by simpa using hf
      cases rest with
      | nil =>
        refine ⟨(lo, cap - lo), ?_, ?_⟩
        · simp [gapsLow]
        · rw [show blockSize c = c.stop - c.start from rfl]
          omega
      | cons d rest' =>
        rw [chainOK_cons] at h4
        refine ⟨(lo, d.start - lo), ?_, ?_⟩
        · simp [gapsLow]
        · rw [show blockSize c = c.stop - c.start from rfl]
          obtain ⟨g1, -, -, -⟩ := h4
          omega
    · rw [if_neg hb] at hf ⊢
      obtain ⟨g, hg, hgs⟩ := ih h4 hf
      refine ⟨g, ?_, hgs⟩
      show g ∈ (lo, c.start - lo) :: gapsLow c.stop cap (freeWalk b rest)
      exact List.mem_cons_of_mem _ hg

lemma sortedInsert_self_mem (blk : MemoryBlock) :
    ∀ l : List MemoryBlock, blk ∈ sortedInsert blk l := by
  intro l
  induction l with
  | nil => simp [sortedInsert]
  | cons c rest ih =>
    by_cases h : blk.start ≤ c.start
    · rw [sortedInsert_cons_le h]
      exact List.mem_cons_self _ _
    · rw [sortedInsert_cons_lt (by omega)]
      exact List.mem_cons_of_mem _ ih

lemma alloc_succeeds_after_free {st : MMState} {b s : Nat} {cur : MemoryBlock}
    (hInv : Inv st) (hf : findBlock b st.memory_head = some cur)
    (hs : 1 ≤ s) (hle : s ≤ blockSize cur) :
    ∃ a, mem_alloc_no_lock s (mem_free_no_lock (some b) st) =
      (some a, ⟨st.memory, sortedInsert ⟨a, a + s⟩ (freeWalk b st.memory_head),
        st.memory_size⟩) := by
  have hst1 : mem_free_no_lock (some b) st =
      (⟨st.memory, freeWalk b st.memory_head, st.memory_size⟩ : MMState) := rfl
  have hmem : st.memory = true := by
    cases hm : st.memory with
    | false =>
      have := hInv.2 hm
      rw [this] at hf
      simp [findBlock] at hf
    | true => rfl
  obtain ⟨hcurmem, -⟩ := findBlock_some hf
  have hfacts := chainOK_forall_mem hInv.1 cur hcurmem
  have hcap : s ≤ st.memory_size := by
    rw [show blockSize cur = cur.stop - cur.start from rfl] at hle
    omega
  have hch1 : chainOK 0 st.memory_size (freeWalk b st.memory_head) = true :=
    freeWalk_chainOK hInv.1
  obtain ⟨g, hg, hgs⟩ := free_gap hInv.1 hf
  obtain ⟨a, hff⟩ := firstFit_isSome ⟨g, hg, le_trans hle hgs⟩
  refine ⟨a, ?_⟩
  rw [hst1, alloc_eq_allocSpec (by exact hch1)]
  unfold allocSpec
  dsimp only
  rw [if_neg (by push_neg; exact ⟨by simp [hmem], by omega⟩)]
  rw [if_neg (by omega)]
  rw [hff]

/-- Claim C9: a resize of a tracked block of size `S` to any new size `s`
with `1 ≤ s ≤ S` succeeds: freeing the block opens a gap at least `S`
long, so the first-fit search always finds room for `s`. -/
theorem c9_shrink_resize_succeeds (st : MMState) (mem : Nat → UInt8)
    (b s : Nat) (cur : MemoryBlock) (hInv : Inv st)
    (hf : findBlock b st.memory_head = some cur)
    (h1 : 1 ≤ s) (h2 : s ≤ blockSize cur) :
    ∃ a, (mem_resize (some b) s st mem).1 = some a := by
  obtain ⟨a, ha⟩ := alloc_succeeds_after_free hInv hf h1 h2
  rw [mem_resize_success hf (by omega) ha]
  exact ⟨a, rfl⟩

theorem c9_witness :
    ∃ a, (mem_resize (some 0) 2 (MMState.mk true [⟨0, 4⟩] 10) (fun _ => 0)).1 = some a :=
  c9_shrink_resize_succeeds (MMState.mk true [⟨0, 4⟩] 10) (fun _ => 0) 0 2 ⟨0, 4⟩
    (by constructor <;> decide) (by decide) (by decide) (by decide)

lemma alloc_none_state {s : Nat} {st : MMState} :
    (mem_alloc_no_lock s st).1 = none → (mem_alloc_no_lock s st).2 = st := by
  intro h
  unfold mem_alloc_no_lock at h ⊢
  by_cases h0 : st.memory = false ∨ st.memory_size < s
  · rw [if_pos h0]
  · rw [if_neg h0] at h ⊢
    by_cases hz : s = 0
    · rw [if_pos hz] at h
      simp at h
    · rw [if_neg hz] at h ⊢
      cases hh : st.memory_head with
      | nil =>
        rw [hh] at h
        simp at h
      | cons hd tl =>
        rw [hh] at h
        dsimp only at h ⊢
        by_cases hfit : s ≤ hd.start
        · rw [if_pos hfit] at h
          simp at h
        · rw [if_neg hfit] at h ⊢
          cases hw : allocWalk s st.memory_size (hd :: tl) with
          | none => rfl
          | some p =>
            rw [hw] at h
            simp at h

/-- Claim C4: when `mem_resize` on a tracked block of size `S` cannot
place the new size, it reports no allocation, and the rollback
re-allocation of exactly `S` bytes succeeds (the freed gap is at least
`S` long), so the final index holds a record of exactly `S` bytes —
possibly at a new address — and still satisfies the manager invariant. -/
theorem c4_resize_rollback (st : MMState) (mem : Nat → UInt8) (b s : Nat)
    (cur : MemoryBlock) (hInv : Inv st)
    (hf : findBlock b st.memory_head = some cur) (hs : 1 ≤ s)
    (hfail : (mem_alloc_no_lock s (mem_free_no_lock (some b) st)).1 = none) :
    (mem_resize (some b) s st mem).1 = none ∧
    (∃ a, (⟨a, a + blockSize cur⟩ : MemoryBlock) ∈
      (mem_resize (some b) s st mem).2.1.memory_head) ∧
    Inv (mem_resize (some b) s st mem).2.1 := by
  have hst2 := alloc_none_state hfail
  have hp : mem_alloc_no_lock s (mem_free_no_lock (some b) st) =
      (none, mem_free_no_lock (some b) st) := by
    rcases hq : mem_alloc_no_lock s (mem_free_no_lock (some b) st) with ⟨r, st2⟩
    rw [hq] at hfail hst2
    simp only at hfail hst2
    rw [hfail, hst2]
  obtain ⟨hcurmem, -⟩ := findBlock_some hf
  have hfacts := chainOK_forall_mem hInv.1 cur hcurmem
  have hS1 : 1 ≤ blockSize cur := by
    rw [show blockSize cur = cur.stop - cur.start from rfl]
    omega
  obtain ⟨a, ha⟩ := alloc_succeeds_after_free hInv hf hS1 (le_refl _)
  rw [mem_resize_failure hf (by omega) hp]
  refine ⟨rfl, ⟨a, ?_⟩, ?_⟩
  · show (⟨a, a + blockSize cur⟩ : MemoryBlock) ∈
      (mem_alloc_no_lock (cur.stop - cur.start) (mem_free_no_lock (some b) st)).2.memory_head
    rw [show cur.stop - cur.start = blockSize cur from rfl, ha]
    exact sortedInsert_self_mem _ _
  · exact alloc_preserves_Inv _ _ (free_preserves_Inv _ _ hInv)

theorem c4_witness :
    (mem_resize (some 0) 6 (MMState.mk true [⟨0, 5⟩, ⟨5, 10⟩] 10) (fun _ => 0)).1 = none ∧
    (∃ a, (⟨a, a + blockSize ⟨0, 5⟩⟩ : MemoryBlock) ∈
      (mem_resize (some 0) 6 (MMState.mk true [⟨0, 5⟩, ⟨5, 10⟩] 10) (fun _ => 0)).2.1.memory_head) ∧
    Inv (mem_resize (some 0) 6 (MMState.mk true [⟨0, 5⟩, ⟨5, 10⟩] 10) (fun _ => 0)).2.1 :=
  c4_resize_rollback (MMState.mk true [⟨0, 5⟩, ⟨5, 10⟩] 10) (fun _ => 0) 0 6 ⟨0, 5⟩
    (by constructor <;> decide) (by decide) (by decide) (by decide)

lemma insertBeforeWalk_not_mem {nw : LNode} {t : Nat} :
    ∀ {l : List LNode}, t ∉ listAddrs l → insertBeforeWalk nw t l = l := by
  intro l
  induction l with
  | nil => intro _; rfl
  | cons c rest ih =>
    intro hmem
    cases rest with
    | nil => rfl
    | cons d rest' =>
      have hd : ¬ d.addr = t := by
        simp [listAddrs] at hmem
        intro hdt
        exact hmem.2.1 hdt.symm
      have hrest : t ∉ listAddrs (d :: rest') := by
        simp [listAddrs] at hmem ⊢
        exact ⟨hmem.2.1, hmem.2.2⟩
      unfold insertBeforeWalk
      rw [if_neg hd, ih hrest]

lemma sortedInsert_length (blk : MemoryBlock) :
    ∀ l : List MemoryBlock, (sortedInsert blk l).length = l.length + 1 := by
  intro l
  induction l with
  | nil => rfl
  | cons c rest ih =>
    by_cases h : blk.start ≤ c.start
    · rw [sortedInsert_cons_le h]
      rfl
    · rw [sortedInsert_cons_lt (by omega)]
      simp [ih]

lemma allocSpec_some_head {s : Nat} {st : MMState} {a : Nat} {st2 : MMState}
    (hs : 1 ≤ s) (hp : allocSpec s st = (some a, st2)) :
    st2.memory_head = sortedInsert ⟨a, a + s⟩ st.memory_head := by
  unfold allocSpec at hp
  by_cases h0 : st.memory = false ∨ st.memory_size < s
  · rw [if_pos h0] at hp
    simp at hp
  · rw [if_neg h0, if_neg (by omega)] at hp
    cases hff : firstFit s (gapsLow 0 st.memory_size st.memory_head) with
    | none =>
      rw [hff] at hp
      simp at hp
    | some a2 =>
      rw [hff] at hp
      simp only [Prod.mk.injEq, Option.some.injEq] at hp
      obtain ⟨rfl, h2⟩ := hp
      rw [← h2]

/-- Claim C10: on a non-empty list, `list_insert_before` with a non-null
target address that is no node of the list leaves the list structure
unchanged, yet the node-sized block it allocated from the manager is
neither linked nor freed: whenever that allocation succeeds, the block
index ends up with exactly one more live record than before, so each such
call permanently consumes pool space. -/
theorem c10_insert_before_leaks (mgr : MMState) (lst : List LNode)
    (t data nodeSize a : Nat) (hInv : Inv mgr) (hne : lst ≠ [])
    (hmem : t ∉ listAddrs lst) (hns : 1 ≤ nodeSize)
    (halloc : (mem_alloc_no_lock nodeSize mgr).1 = some a) :
    (list_insert_before mgr lst (some t) data nodeSize).2 = lst ∧
    (list_insert_before mgr lst (some t) data nodeSize).1.memory_head.length =
      mgr.memory_head.length + 1 := by
  rcases lst with - | ⟨hd, tl⟩
  · exact absurd rfl hne
  have hhd : ¬ t = hd.addr := by
    simp [listAddrs] at hmem
    intro hth
    exact hmem.1 hth
  rcases hp : mem_alloc_no_lock nodeSize mgr with ⟨r, mgr2⟩
  rw [hp] at halloc
  simp only at halloc
  subst halloc
  have hhead : mgr2.memory_head = sortedInsert ⟨a, a + nodeSize⟩ mgr.memory_head := by
    rw [alloc_eq_allocSpec hInv.1] at hp
    exact allocSpec_some_head hns hp
  unfold list_insert_before
  rw [hp]
  dsimp only
  rw [if_neg hhd, insertBeforeWalk_not_mem hmem]
  refine ⟨rfl, ?_⟩
  show mgr2.memory_head.length = mgr.memory_head.length + 1
  rw [hhead, sortedInsert_length]

theorem c10_witness :
    (list_insert_before (MMState.mk true [] 8) [⟨0, 5⟩] (some 3) 9 2).2 = [⟨0, 5⟩] ∧
    (list_insert_before (MMState.mk true [] 8) [⟨0, 5⟩] (some 3) 9 2).1.memory_head.length =
      (MMState.mk true [] 8).memory_head.length + 1 :=
  c10_insert_before_leaks (MMState.mk true [] 8) [⟨0, 5⟩] 3 9 2 0
    (by constructor <;> decide) (by decide) (by decide) (by decide) (by decide)

end MemMgr
